import Mathlib

set_option maxRecDepth 8000

/-!
# Verification of the semantic-ID generator and corpus analyzer

A shallow embedding of `scripts/validate_semantic_ids.py`.  Python strings
are modelled as `List Char` (a Python string is a sequence of code points);
Python `re` substitutions and string methods are modelled character by
character.  Python's true division, which raises `ZeroDivisionError` on a
zero denominator, is modelled as `Option ℚ` (`none` = the run aborts with
an exception).  The global random suffix source is modelled as an injected
stream `ℕ → List Char`, one entry consumed per record, matching the spec's
requirement that the suffix source be injectable.
-/

/-- `[a-z0-9]` membership, the character class of the slug regexes. -/
def isLowerAlnum (c : Char) : Bool :=
  ('a' ≤ c && c ≤ 'z') || ('0' ≤ c && c ≤ '9')

/-- Characters allowed in a finished slug: `[a-z0-9_]`. -/
def isSlugChar (c : Char) : Bool :=
  isLowerAlnum c || c == '_'

/-- `str.lower` restricted to ASCII (`A`-`Z` ↦ `a`-`z`).  The spec flags
non-ASCII folding as unspecified; every claim proved below is insensitive
to the behaviour of `lower` outside `A`-`Z`, because the following regex
replacement step erases every character outside `[a-z0-9]`. -/
def pyLowerChar (c : Char) : Char :=
  if 'A' ≤ c && c ≤ 'Z' then Char.ofNat (c.toNat + 32) else c

/-- `re.sub(r"[^a-z0-9]+", "_", s)`: each maximal run of characters outside
`[a-z0-9]` becomes a single underscore.  The boolean state records whether
we are inside such a run (its single `'_'` already emitted). -/
def subRunsAux : Bool → List Char → List Char
  | _, [] => []
  | inRun, c :: cs =>
    if isLowerAlnum c then c :: subRunsAux false cs
    else if inRun then subRunsAux true cs
    else '_' :: subRunsAux true cs

/-- `re.sub(r"[^a-z0-9]+", "_", s)`. -/
def subRuns (l : List Char) : List Char := subRunsAux false l

/-- `re.sub(r"_+", "_", s)`: collapse runs of underscores.  The boolean
state records whether the previously emitted character was `'_'`. -/
def collapseAux : Bool → List Char → List Char
  | _, [] => []
  | prevU, c :: cs =>
    if c == '_' then
      if prevU then collapseAux true cs else '_' :: collapseAux true cs
    else c :: collapseAux false cs

/-- `re.sub(r"_+", "_", s)`. -/
def collapseUnderscores (l : List Char) : List Char := collapseAux false l

/-- `s.strip("_")`: drop underscores from both ends. -/
def pyStripUnderscore (l : List Char) : List Char :=
  (l.dropWhile (· == '_')).rdropWhile (· == '_')

/-- `if slug and slug[0].isdigit(): slug = "n" + slug`.  At its call site
every character is in `[a-z0-9_]`, so Python's Unicode `isdigit` coincides
with `Char.isDigit` (`0`-`9`). -/
def digitPrefixStep (slug : List Char) : List Char :=
  match slug with
  | [] => []
  | c :: _ => if c.isDigit then 'n' :: slug else slug

/-- `s.rfind(ch)`: index of the last occurrence, `-1` if absent. -/
def rfindChar (ch : Char) : List Char → Int
  | [] => -1
  | c :: cs =>
    let r := rfindChar ch cs
    if 0 ≤ r then r + 1 else if c == ch then 0 else -1

/-- The truncation step of `generate_semantic_slug` (source lines 61-67):
if the slug exceeds 40 characters, keep the first 40; if the last
underscore of that prefix sits at an index above 25, cut there instead;
finally `rstrip("_")`. -/
def truncateStep (slug : List Char) : List Char :=
  if 40 < slug.length then
    let truncated := slug.take 40
    let lastU := rfindChar '_' truncated
    let truncated2 := if 25 < lastU then truncated.take lastU.toNat else truncated
    truncated2.rdropWhile (· == '_')
  else slug

/-- The minimum-length step (source lines 70-71):
`slug = slug + "x" * (3 - len(slug)) if slug else "xxx"` when `len < 3`. -/
def minLenStep (slug : List Char) : List Char :=
  if slug.length < 3 then
    match slug with
    | [] => ['x', 'x', 'x']
    | _ => slug ++ List.replicate (3 - slug.length) 'x'
  else slug

/-- The slug pipeline up to and including the digit-prefix step — the value
`slug` holds just before the truncation step of the source. -/
def preTruncSlug (title : List Char) : List Char :=
  digitPrefixStep (pyStripUnderscore (collapseUnderscores (subRuns (title.map pyLowerChar))))

/-- `generate_semantic_slug` (source lines 39-73).  An empty title returns
`"untitled"`; otherwise the normalization pipeline runs. -/
def generate_semantic_slug (title : List Char) : List Char :=
  if title.isEmpty then "untitled".data
  else minLenStep (truncateStep (preTruncSlug title))

example : generate_semantic_slug "".data = "untitled".data := by decide
example : generate_semantic_slug "123 Launch".data = "n123_launch".data := by decide
example : generate_semantic_slug "!!!".data = "xxx".data := by decide
example : generate_semantic_slug "Hello, World!".data = "hello_world".data := by decide
example : generate_semantic_slug (List.replicate 45 'a') = List.replicate 40 'a' := by decide

/-- Detects a run of two consecutive underscores. -/
def hasDD : List Char → Bool
  | c :: d :: rest => (c == '_' && d == '_') || hasDD (d :: rest)
  | _ => false

lemma hasDD_cons (c : Char) (l : List Char) :
    hasDD (c :: l) = (l.head?.elim false (fun d => c == '_' && d == '_') || hasDD l) := by
  cases l <;> rfl

lemma hasDD_append_left {a b : List Char} (h : hasDD (a ++ b) = false) :
    hasDD a = false := by
  induction a with
  | nil => rfl
  | cons c a' ih =>
    rw [List.cons_append, hasDD_cons] at h
    rw [hasDD_cons]
    rcases Bool.or_eq_false_iff.mp h with ⟨h1, h2⟩
    refine Bool.or_eq_false_iff.mpr ⟨?_, ih h2⟩
    cases a' with
    | nil => rfl
    | cons d a'' => simpa using h1

lemma hasDD_append_right {a b : List Char} (h : hasDD (a ++ b) = false) :
    hasDD b = false := by
  induction a with
  | nil => exact h
  | cons c a' ih =>
    rw [List.cons_append, hasDD_cons] at h
    exact ih (Bool.or_eq_false_iff.mp h).2

lemma hasDD_of_mid {a b : List Char} (h : a <:+: b) (hb : hasDD b = false) :
    hasDD a = false := by
  obtain ⟨s, t, rfl⟩ := h
  rw [List.append_assoc] at hb
  exact hasDD_append_left (hasDD_append_right hb)

lemma hasDD_append_of {a b : List Char} (ha : hasDD a = false) (hb : hasDD b = false)
    (hglue : b.head? ≠ some '_') : hasDD (a ++ b) = false := by
  induction a with
  | nil => exact hb
  | cons c a' ih =>
    rw [List.cons_append, hasDD_cons]
    rw [hasDD_cons] at ha
    rcases Bool.or_eq_false_iff.mp ha with ⟨ha1, ha2⟩
    refine Bool.or_eq_false_iff.mpr ⟨?_, ih ha2⟩
    cases a' with
    | nil =>
      simp only [List.nil_append]
      cases hbh : b.head? with
      | none => rfl
      | some d =>
        have : d ≠ '_' := fun hd => hglue (hd ▸ hbh)
        simp [hbh, this]
    | cons d a'' => simpa using ha1

lemma head?_of_pre {a b : List Char} (h : a <+: b) (ha : a ≠ []) :
    b.head? = a.head? := by
  obtain ⟨t, rfl⟩ := h
  cases a with
  | nil => exact absurd rfl ha
  | cons c a' => rfl

lemma subRunsAux_mem : ∀ (l : List Char) (st : Bool) (c : Char),
    c ∈ subRunsAux st l → isSlugChar c = true := by
  intro l
  induction l with
  | nil => intro st c h; simp [subRunsAux] at h
  | cons d cs ih =>
    intro st c h
    by_cases hd : isLowerAlnum d = true
    · rw [subRunsAux, if_pos hd] at h
      rcases List.mem_cons.mp h with rfl | h'
      · exact Bool.or_eq_true_iff.mpr (Or.inl hd)
      · exact ih false c h'
    · rw [subRunsAux, if_neg hd] at h
      cases st with
      | true => exact ih true c (by simpa using h)
      | false =>
        simp only [Bool.false_eq_true, if_false] at h
        rcases List.mem_cons.mp h with rfl | h'
        · decide
        · exact ih true c h'

lemma subRunsAux_head_true : ∀ l : List Char, (subRunsAux true l).head? ≠ some '_' := by
  intro l
  induction l with
  | nil => simp [subRunsAux]
  | cons d cs ih =>
    by_cases hd : isLowerAlnum d = true
    · rw [subRunsAux, if_pos hd]
      intro h
      simp only [List.head?_cons, Option.some.injEq] at h
      subst h
      exact absurd hd (by decide)
    · rw [subRunsAux, if_neg hd]
      simpa using ih

lemma subRunsAux_noDD : ∀ (l : List Char) (st : Bool), hasDD (subRunsAux st l) = false := by
  intro l
  induction l with
  | nil => intro st; rfl
  | cons d cs ih =>
    intro st
    by_cases hd : isLowerAlnum d = true
    · rw [subRunsAux, if_pos hd, hasDD_cons]
      refine Bool.or_eq_false_iff.mpr ⟨?_, ih false⟩
      have hdne : (d == '_') = false := by
        apply beq_eq_false_iff_ne.mpr
        intro h; subst h; exact absurd hd (by decide)
      cases hh : (subRunsAux false cs).head? <;> simp [hdne]
    · rw [subRunsAux, if_neg hd]
      cases st with
      | true => simpa using ih true
      | false =>
        simp only [Bool.false_eq_true, if_false]
        rw [hasDD_cons]
        refine Bool.or_eq_false_iff.mpr ⟨?_, ih true⟩
        cases hh : (subRunsAux true cs).head? with
        | none => rfl
        | some e =>
          have : e ≠ '_' := by
            intro he; subst he; exact subRunsAux_head_true cs hh
          simp [this]

lemma collapseAux_mem : ∀ (l : List Char) (st : Bool) (c : Char),
    c ∈ collapseAux st l → c ∈ l := by
  intro l
  induction l with
  | nil => intro st c h; simp [collapseAux] at h
  | cons d cs ih =>
    intro st c h
    by_cases hd : (d == '_') = true
    · rw [collapseAux, if_pos hd] at h
      have hdu : d = '_' := beq_iff_eq.mp hd
      cases st with
      | true => exact List.mem_cons_of_mem d (ih true c (by simpa using h))
      | false =>
        simp only [Bool.false_eq_true, if_false] at h
        rcases List.mem_cons.mp h with rfl | h'
        · exact hdu ▸ List.mem_cons_self _ _
        · exact List.mem_cons_of_mem d (ih true c h')
    · rw [collapseAux, if_neg hd] at h
      rcases List.mem_cons.mp h with rfl | h'
      · exact List.mem_cons_self _ _
      · exact List.mem_cons_of_mem d (ih false c h')

lemma collapseAux_head_true : ∀ l : List Char, (collapseAux true l).head? ≠ some '_' := by
  intro l
  induction l with
  | nil => simp [collapseAux]
  | cons d cs ih =>
    by_cases hd : (d == '_') = true
    · rw [collapseAux, if_pos hd]
      simpa using ih
    · rw [collapseAux, if_neg hd]
      intro h
      simp only [List.head?_cons, Option.some.injEq] at h
      exact absurd (beq_iff_eq.mpr h) hd

lemma collapseAux_noDD : ∀ (l : List Char) (st : Bool), hasDD (collapseAux st l) = false := by
  intro l
  induction l with
  | nil => intro st; rfl
  | cons d cs ih =>
    intro st
    by_cases hd : (d == '_') = true
    · rw [collapseAux, if_pos hd]
      cases st with
      | true => simpa using ih true
      | false =>
        simp only [Bool.false_eq_true, if_false]
        rw [hasDD_cons]
        refine Bool.or_eq_false_iff.mpr ⟨?_, ih true⟩
        cases hh : (collapseAux true cs).head? with
        | none => rfl
        | some e =>
          have : e ≠ '_' := by
            intro he; subst he; exact collapseAux_head_true cs hh
          simp [this]
    · rw [collapseAux, if_neg hd, hasDD_cons]
      refine Bool.or_eq_false_iff.mpr ⟨?_, ih false⟩
      cases hh : (collapseAux false cs).head? <;> simp [hd]

/-- The structural invariants that hold of the slug value from the strip
step onward: characters in `[a-z0-9_]`, no double underscore, and no
leading or trailing underscore. -/
def SlugOK (s : List Char) : Prop :=
  (∀ c ∈ s, isSlugChar c = true) ∧ hasDD s = false ∧
    s.head? ≠ some '_' ∧ s.getLast? ≠ some '_'

/-- The first character is not a digit. -/
def HeadND (s : List Char) : Prop :=
  ∀ c, s.head? = some c → c.isDigit = false

lemma pyStripUnderscore_mid (l : List Char) : pyStripUnderscore l <:+: l :=
  ( List.rdropWhile_prefix _ _).isInfix.trans (List.dropWhile_suffix _).isInfix

lemma pyStripUnderscore_ok (l : List Char)
    (hchars : ∀ c ∈ l, isSlugChar c = true) (hnodd : hasDD l = false) :
    SlugOK (pyStripUnderscore l) := by
  refine ⟨?_, ?_, ?_, ?_⟩
  · intro c hc
    exact hchars c ((pyStripUnderscore_mid l).sublist.subset hc)
  · exact hasDD_of_mid (pyStripUnderscore_mid l) hnodd
  · intro hcontra
    have hne : pyStripUnderscore l ≠ [] := by
      intro h0; rw [h0] at hcontra; exact Option.noConfusion hcontra
    have hpre : pyStripUnderscore l <+: l.dropWhile (· == '_') :=
      List.rdropWhile_prefix _ _
    have hh : (l.dropWhile (· == '_')).head? = (pyStripUnderscore l).head? :=
      head?_of_pre hpre hne
    have := List.head?_dropWhile_not (· == '_') l
    rw [hh, hcontra] at this
    simp at this
  · intro hcontra
    have hne : (l.dropWhile (· == '_')).rdropWhile (· == '_') ≠ [] := by
      intro h0
      rw [pyStripUnderscore, h0] at hcontra
      exact Option.noConfusion hcontra
    have hlast := List.rdropWhile_last_not (· == '_') (l.dropWhile (· == '_')) hne
    rw [pyStripUnderscore, List.getLast?_eq_getLast _ hne] at hcontra
    have : ((l.dropWhile (· == '_')).rdropWhile (· == '_')).getLast hne = '_' :=
      Option.some.inj hcontra
    rw [this] at hlast
    simp at hlast

lemma digitPrefixStep_ok (s : List Char) (h : SlugOK s) :
    SlugOK (digitPrefixStep s) ∧ HeadND (digitPrefixStep s) := by
  obtain ⟨hchars, hnodd, hhead, hlast⟩ := h
  cases s with
  | nil =>
    exact ⟨⟨by simp [digitPrefixStep], rfl, by simp [digitPrefixStep],
      by simp [digitPrefixStep]⟩, by simp [digitPrefixStep, HeadND]⟩
  | cons c rest =>
    by_cases hc : c.isDigit = true
    · rw [digitPrefixStep, if_pos hc]
      refine ⟨⟨?_, ?_, ?_, ?_⟩, ?_⟩
      · intro d hd
        rcases List.mem_cons.mp hd with rfl | hd'
        · decide
        · exact hchars d hd'
      · rw [hasDD_cons]
        refine Bool.or_eq_false_iff.mpr ⟨?_, hnodd⟩
        cases hh : (c :: rest).head? <;> simp
      · intro hcontra
        simp only [List.head?_cons, Option.some.injEq] at hcontra
        exact absurd hcontra (by decide)
      · rw [List.getLast?_cons_cons]
        exact hlast
      · intro d hd
        simp only [List.head?_cons, Option.some.injEq] at hd
        subst hd; decide
    · rw [digitPrefixStep, if_neg hc]
      refine ⟨⟨hchars, hnodd, hhead, hlast⟩, ?_⟩
      intro d hd
      simp only [List.head?_cons, Option.some.injEq] at hd
      subst hd
      exact Bool.eq_false_iff.mpr hc

lemma preTruncSlug_ok (title : List Char) :
    SlugOK (preTruncSlug title) ∧ HeadND (preTruncSlug title) := by
  have h1 : ∀ c ∈ subRuns (title.map pyLowerChar), isSlugChar c = true :=
    fun c hc => subRunsAux_mem _ false c hc
  have h2 : ∀ c ∈ collapseUnderscores (subRuns (title.map pyLowerChar)), isSlugChar c = true :=
    fun c hc => h1 c (collapseAux_mem _ false c hc)
  have h3 : hasDD (collapseUnderscores (subRuns (title.map pyLowerChar))) = false :=
    collapseAux_noDD _ false
  exact digitPrefixStep_ok _ (pyStripUnderscore_ok _ h2 h3)

lemma truncateStep_pre (s : List Char) : truncateStep s <+: s := by
  rw [truncateStep]
  split
  · refine ( List.rdropWhile_prefix _ _).trans ?_
    split
    · exact ( List.take_prefix _ _).trans ( List.take_prefix _ _)
    · exact List.take_prefix _ _
  · exact List.prefix_refl _

lemma truncateStep_ok (s : List Char) (h : SlugOK s) (hnd : HeadND s) :
    SlugOK (truncateStep s) ∧ HeadND (truncateStep s) ∧ (truncateStep s).length ≤ 40 := by
  obtain ⟨hchars, hnodd, hhead, hlast⟩ := h
  have hpre := truncateStep_pre s
  have hchars' : ∀ c ∈ truncateStep s, isSlugChar c = true :=
    fun c hc => hchars c (hpre.sublist.subset hc)
  have hnodd' : hasDD (truncateStep s) = false := hasDD_of_mid hpre.isInfix hnodd
  have hhead' : (truncateStep s).head? ≠ some '_' := by
    cases he : truncateStep s with
    | nil => simp
    | cons c rest =>
      rw [← he]
      have := head?_of_pre hpre (he ▸ List.cons_ne_nil c rest)
      rw [← this]
      exact hhead
  have hnd' : HeadND (truncateStep s) := by
    intro c hc
    cases he : truncateStep s with
    | nil => rw [he] at hc; exact Option.noConfusion hc
    | cons d rest =>
      have := head?_of_pre hpre (he ▸ List.cons_ne_nil d rest)
      exact hnd c (this ▸ hc)
  refine ⟨⟨hchars', hnodd', hhead', ?_⟩, hnd', ?_⟩
  · rw [truncateStep]
    split
    · set t2 := if 25 < rfindChar '_' (s.take 40) then (s.take 40).take (rfindChar '_' (s.take 40)).toNat
        else s.take 40 with ht2
      intro hcontra
      have hne : t2.rdropWhile (· == '_') ≠ [] := by
        intro h0; rw [h0] at hcontra; exact Option.noConfusion hcontra
      have hlastne := List.rdropWhile_last_not (· == '_') t2 hne
      rw [List.getLast?_eq_getLast _ hne] at hcontra
      have : (t2.rdropWhile (· == '_')).getLast hne = '_' := Option.some.inj hcontra
      rw [this] at hlastne
      simp at hlastne
    · exact hlast
  · rw [truncateStep]
    split
    · rename_i hlen
      have h1 : (List.rdropWhile (· == '_')
          (if 25 < rfindChar '_' (s.take 40) then (s.take 40).take (rfindChar '_' (s.take 40)).toNat
            else s.take 40)).length ≤
          (if 25 < rfindChar '_' (s.take 40) then (s.take 40).take (rfindChar '_' (s.take 40)).toNat
            else s.take 40).length :=
        ( List.rdropWhile_prefix _ _).length_le
      refine h1.trans ?_
      split
      · simp only [List.length_take]
        have := ( List.take_prefix ((rfindChar '_' (s.take 40)).toNat) (s.take 40)).length_le
        simp only [List.length_take] at this
        omega
      · simp
    · omega

lemma hasDD_replicate_x : ∀ n : Nat, hasDD (List.replicate n 'x') = false := by
  intro n
  induction n with
  | zero => rfl
  | succ m ih =>
    rw [List.replicate_succ, hasDD_cons]
    refine Bool.or_eq_false_iff.mpr ⟨?_, ih⟩
    rw [List.head?_replicate]
    split <;> simp

lemma minLenStep_ok (s : List Char) (h : SlugOK s) (hnd : HeadND s)
    (hlen : s.length ≤ 40) :
    SlugOK (minLenStep s) ∧ HeadND (minLenStep s) ∧
      3 ≤ (minLenStep s).length ∧ (minLenStep s).length ≤ 40 := by
  obtain ⟨hchars, hnodd, hhead, hlast⟩ := h
  cases s with
  | nil =>
    have hm : minLenStep ([] : List Char) = ['x', 'x', 'x'] := rfl
    rw [hm]
    refine ⟨⟨by decide, rfl, by decide, by decide⟩, ?_, by decide, by decide⟩
    intro c hc
    simp only [List.head?_cons, Option.some.injEq] at hc
    simp [← hc]
  | cons c rest =>
    by_cases hshort : (c :: rest).length < 3
    · have hm : minLenStep (c :: rest) = (c :: rest) ++ List.replicate (3 - (c :: rest).length) 'x' := by
        unfold minLenStep
        rw [if_pos hshort]
      have hrep : 1 ≤ 3 - (c :: rest).length := by
        simp only [List.length_cons] at hshort ⊢; omega
      rw [hm]
      refine ⟨⟨?_, ?_, ?_, ?_⟩, ?_, ?_, ?_⟩
      · intro d hd
        rcases List.mem_append.mp hd with hd' | hd'
        · exact hchars d hd'
        · rw [List.eq_of_mem_replicate hd']; decide
      · refine hasDD_append_of hnodd (hasDD_replicate_x _) ?_
        rw [List.head?_replicate]
        split
        · simp
        · simp only [ne_eq, Option.some.injEq]; decide
      · rw [List.head?_append]
        simp only [List.head?_cons, Option.or_some]
        exact hhead
      · rw [List.getLast?_append, List.getLast?_replicate,
          if_neg (by simp only [List.length_cons] at hshort ⊢; omega)]
        simp only [Option.or_some, ne_eq, Option.some.injEq]
        decide
      · intro d hd
        rw [List.head?_append] at hd
        simp only [List.head?_cons, Option.or_some, Option.some.injEq] at hd
        exact hnd d (by simp [hd])
      · rw [List.length_append, List.length_replicate]
        omega
      · rw [List.length_append, List.length_replicate]
        simp only [List.length_cons] at hshort ⊢
        omega
    · have hm : minLenStep (c :: rest) = c :: rest := by
        unfold minLenStep
        rw [if_neg hshort]
      rw [hm]
      exact ⟨⟨hchars, hnodd, hhead, hlast⟩, hnd, by omega, hlen⟩

/-- The slug invariant stated by the spec (§3 Data Model, §8 property 1):
characters in `[a-z0-9_]`, no run of two underscores, no leading or
trailing underscore, length between 3 and 40, first character not a
digit. -/
def slugSpecInvariant (s : List Char) : Bool :=
  s.all isSlugChar && !(hasDD s) && (s.head? != some '_') && (s.getLast? != some '_')
    && decide (3 ≤ s.length) && decide (s.length ≤ 40)
    && !(s.head?.elim false Char.isDigit)

/-- C1: for every input title, the slug returned by
`generate_semantic_slug` consists only of characters in `[a-z0-9_]`,
contains no run of two or more consecutive underscores, neither starts
nor ends with an underscore, has length between 3 and 40 inclusive, and
does not start with a digit. -/
theorem C1_slug_invariants (title : List Char) :
    slugSpecInvariant (generate_semantic_slug title) = true := by
  rw [generate_semantic_slug]
  by_cases ht : title.isEmpty
  · rw [if_pos ht]; decide
  · rw [if_neg ht]
    obtain ⟨hok, hnd⟩ := preTruncSlug_ok title
    obtain ⟨hok2, hnd2, hlen2⟩ := truncateStep_ok _ hok hnd
    obtain ⟨⟨hchars, hnodd, hhead, hlast⟩, hnd3, hge, hle⟩ := minLenStep_ok _ hok2 hnd2 hlen2
    simp only [slugSpecInvariant, Bool.and_eq_true, List.all_eq_true, bne_iff_ne, ne_eq,
      Bool.not_eq_true', decide_eq_true_eq]
    refine ⟨⟨⟨⟨⟨⟨?_, ?_⟩, ?_⟩, ?_⟩, ?_⟩, ?_⟩, ?_⟩
    · exact fun c hc => hchars c hc
    · exact hnodd
    · exact hhead
    · exact hlast
    · exact hge
    · exact hle
    · cases hh : (minLenStep (truncateStep (preTruncSlug title))).head? with
      | none => rfl
      | some c => simpa using hnd3 c hh

lemma rfindChar_ge_neg_one (ch : Char) : ∀ l : List Char, -1 ≤ rfindChar ch l := by
  intro l
  induction l with
  | nil => simp [rfindChar]
  | cons c cs ih =>
    rw [rfindChar]
    split
    · omega
    · split <;> omega

lemma rfindChar_lt_length (ch : Char) : ∀ l : List Char, rfindChar ch l < (l.length : Int) := by
  intro l
  induction l with
  | nil => simp [rfindChar]
  | cons c cs ih =>
    rw [rfindChar]
    simp only [List.length_cons]
    split
    · push_cast; omega
    · split <;> (push_cast; omega)

lemma le_rfindChar (ch : Char) : ∀ (l : List Char) (i : Nat),
    l[i]? = some ch → (i : Int) ≤ rfindChar ch l := by
  intro l
  induction l with
  | nil => intro i h; simp at h
  | cons c cs ih =>
    intro i h
    cases i with
    | zero =>
      simp only [List.getElem?_cons_zero, Option.some.injEq] at h
      subst h
      rw [rfindChar]
      have := rfindChar_ge_neg_one c cs
      split
      · omega
      · rw [if_pos (beq_self_eq_true c)]; simp
    | succ i' =>
      simp only [List.getElem?_cons_succ] at h
      have hle := ih i' h
      have hge : (0 : Int) ≤ rfindChar ch cs := le_trans (by positivity) hle
      rw [rfindChar, if_pos hge]
      push_cast
      omega

lemma rfindChar_getElem (ch : Char) : ∀ l : List Char, 0 ≤ rfindChar ch l →
    l[(rfindChar ch l).toNat]? = some ch := by
  intro l
  induction l with
  | nil => intro h; simp [rfindChar] at h
  | cons c cs ih =>
    intro h
    rw [rfindChar]
    by_cases hr : (0 : Int) ≤ rfindChar ch cs
    · rw [if_pos hr]
      have ht : (rfindChar ch cs + 1).toNat = (rfindChar ch cs).toNat + 1 := by omega
      rw [ht, List.getElem?_cons_succ]
      exact ih hr
    · rw [if_neg hr]
      by_cases hc : (c == ch) = true
      · rw [if_pos hc]
        simp only [Int.toNat_zero, List.getElem?_cons_zero, Option.some.injEq]
        exact beq_iff_eq.mp hc
      · rw [if_neg hc]
        rw [rfindChar, if_neg hr, if_neg hc] at h
        omega

lemma noDD_adjacent : ∀ l : List Char, hasDD l = false →
    ∀ i : Nat, l[i]? = some '_' → l[i + 1]? ≠ some '_' := by
  intro l
  induction l with
  | nil => intro _ i h; simp at h
  | cons c cs ih =>
    intro hdd i hi
    rw [hasDD_cons] at hdd
    rcases Bool.or_eq_false_iff.mp hdd with ⟨h1, h2⟩
    cases i with
    | zero =>
      simp only [List.getElem?_cons_zero, Option.some.injEq] at hi
      subst hi
      intro hcontra
      simp only [List.getElem?_cons_succ] at hcontra
      have hh : cs.head? = some '_' := by
        rw [List.head?_eq_getElem?]
        exact hcontra
      rw [hh] at h1
      simp at h1
    | succ i' =>
      simp only [List.getElem?_cons_succ] at hi ⊢
      exact ih h2 i' hi

/-- C5: when the normalized slug exceeds 40 characters, the result is the
first 40 characters, unless an underscore occurs within those 40
characters at an index above 25, in which case the slug is cut at the
last such underscore; a 45-character run of lowercase letters truncates
to exactly 40 characters. -/
theorem C5_truncation_behavior :
    (∀ title : List Char, 40 < (preTruncSlug title).length →
      ((∀ i : Nat, i < 40 → 25 < i → ((preTruncSlug title).take 40)[i]? ≠ some '_') →
        generate_semantic_slug title = (preTruncSlug title).take 40 ∧
          ((preTruncSlug title).take 40).length = 40) ∧
      (∀ k : Nat, 25 < k → ((preTruncSlug title).take 40)[k]? = some '_' →
        (∀ j : Nat, j < 40 → k < j → ((preTruncSlug title).take 40)[j]? ≠ some '_') →
        generate_semantic_slug title = ((preTruncSlug title).take 40).take k)) ∧
    generate_semantic_slug (List.replicate 45 'a') = List.replicate 40 'a' := by
  constructor
  · intro title h40
    have htne : ¬(title.isEmpty = true) := by
      intro hemp
      have h0 : title = [] := List.isEmpty_iff.mp hemp
      subst h0
      have h1 : preTruncSlug ([] : List Char) = [] := rfl
      rw [h1] at h40
      simp at h40
    have hgen : generate_semantic_slug title = minLenStep (truncateStep (preTruncSlug title)) := by
      rw [generate_semantic_slug, if_neg htne]
    set s := preTruncSlug title with hs
    set t := s.take 40 with htdef
    have htlen : t.length = 40 := by rw [htdef, List.length_take]; omega
    have hnodd_s : hasDD s = false := (preTruncSlug_ok title).1.2.1
    have hnodd_t : hasDD t = false :=
      hasDD_of_mid ( List.take_prefix 40 s).isInfix hnodd_s
    have htrunc : truncateStep s =
        List.rdropWhile (· == '_')
          (if 25 < rfindChar '_' t then t.take (rfindChar '_' t).toNat else t) := by
      rw [truncateStep, if_pos h40]
    constructor
    · intro hno
      have hk0 : ¬(25 < rfindChar '_' t) := by
        intro h25
        have h0le : (0 : Int) ≤ rfindChar '_' t := by omega
        have hget := rfindChar_getElem '_' t h0le
        have hlt := rfindChar_lt_length '_' t
        have hn : (rfindChar '_' t).toNat < 40 := by rw [htlen] at hlt; omega
        have h25' : 25 < (rfindChar '_' t).toNat := by omega
        exact hno _ hn h25' hget
      have hlast_t : t[39]? ≠ some '_' := by
        intro hcontra
        have := le_rfindChar '_' t 39 hcontra
        omega
      have hrd : List.rdropWhile (· == '_') t = t := by
        refine List.rdropWhile_eq_self_iff.mpr ?_
        intro hne hlastp
        have hgl : t.getLast? = some (t.getLast hne) := List.getLast?_eq_getLast t hne
        have h39 : t.getLast? = t[39]? := by rw [List.getLast?_eq_getElem?, htlen]
        apply hlast_t
        rw [← h39, hgl, beq_iff_eq.mp hlastp]
      have htr : truncateStep s = t := by rw [htrunc, if_neg hk0, hrd]
      have hmin : minLenStep t = t := by
        unfold minLenStep
        rw [if_neg (by omega)]
      rw [hgen, htr, hmin]
      exact ⟨rfl, htlen⟩
    · intro k h25k hk hmax
      have hklt : k < t.length := (List.getElem?_eq_some_iff.mp hk).1
      have hle1 : (k : Int) ≤ rfindChar '_' t := le_rfindChar '_' t k hk
      have h0le : (0 : Int) ≤ rfindChar '_' t := by omega
      have hgetk0 := rfindChar_getElem '_' t h0le
      have hltlen := rfindChar_lt_length '_' t
      have hk0n : (rfindChar '_' t).toNat < 40 := by rw [htlen] at hltlen; omega
      have heq : (rfindChar '_' t).toNat = k := by
        by_contra hne
        have hklt' : k < (rfindChar '_' t).toNat := by omega
        exact hmax _ hk0n hklt' hgetk0
      have h25k0 : 25 < rfindChar '_' t := by omega
      have ht2 : (if 25 < rfindChar '_' t then t.take (rfindChar '_' t).toNat else t) =
          t.take k := by
        rw [if_pos h25k0, heq]
      have hkm1 : t[k - 1]? ≠ some '_' := by
        intro hcontra
        have hadj := noDD_adjacent t hnodd_t (k - 1) hcontra
        have hk1 : k - 1 + 1 = k := by omega
        rw [hk1] at hadj
        exact hadj hk
      have hlast_tk : (t.take k).getLast? = t[k - 1]? := by
        rw [List.getLast?_eq_getElem?, List.length_take]
        have hmin' : min k t.length - 1 = k - 1 := by omega
        rw [hmin', List.getElem?_take, if_pos (by omega)]
      have hrd : List.rdropWhile (· == '_') (t.take k) = t.take k := by
        refine List.rdropWhile_eq_self_iff.mpr ?_
        intro hne hlastp
        have hgl : (t.take k).getLast? = some ((t.take k).getLast hne) :=
          List.getLast?_eq_getLast _ hne
        apply hkm1
        rw [← hlast_tk, hgl, beq_iff_eq.mp hlastp]
      have htr : truncateStep s = t.take k := by rw [htrunc, ht2, hrd]
      have hmin : minLenStep (t.take k) = t.take k := by
        unfold minLenStep
        rw [if_neg (by rw [List.length_take]; omega)]
      rw [hgen, htr, hmin]
  · decide

/-- The `TYPE_CODES` dict (source lines 18-32), in insertion order,
including the explicit `"unknown" → "unk"` fallback entry. -/
def TYPE_CODES : List (List Char × List Char) :=
  [("epic".data, "epc".data), ("bug".data, "bug".data), ("task".data, "tsk".data),
   ("feature".data, "ftr".data), ("decision".data, "dec".data), ("convoy".data, "cnv".data),
   ("molecule".data, "mol".data), ("wisp".data, "wsp".data), ("agent".data, "agt".data),
   ("role".data, "rol".data), ("mr".data, "mrq".data), ("unknown".data, "unk".data)]

/-- `TYPE_CODES.get(bead_type, "unk")` (source lines 77 and 101). -/
def typeCodeOf (bead_type : List Char) : List Char :=
  (TYPE_CODES.lookup bead_type).getD "unk".data

example : typeCodeOf "epic".data = "epc".data := by decide
example : typeCodeOf "patrol".data = "unk".data := by decide

/-- Python `s.split(sep)` for a one-character separator. -/
def pySplit (sep : Char) : List Char → List (List Char)
  | [] => [[]]
  | c :: cs =>
    if c == sep then [] :: pySplit sep cs
    else
      match pySplit sep cs with
      | [] => [[c]]
      | h :: t => (c :: h) :: t

/-- `extract_prefix` (source lines 82-86): the segment before the first
`-`, or `"gt"` when the id contains no hyphen. -/
def extract_prefix (bead_id : List Char) : List Char :=
  if '-' ∈ bead_id then (pySplit '-' bead_id).headD [] else "gt".data

example : extract_prefix "gt-abc123".data = "gt".data := by decide
example : extract_prefix "plainid".data = "gt".data := by decide
example : extract_prefix "-abc".data = [] := by decide

/-- The f-string `f"{prefix}-{type_code}-{slug}{suffix}"` (source lines 80
and 104): plain concatenation, no separator between slug and suffix, no
validation. -/
def composeId (pfx type_code slug suffix : List Char) : List Char :=
  pfx ++ "-".data ++ type_code ++ "-".data ++ slug ++ suffix

/-- `generate_semantic_id` (source lines 75-80), with the random suffix
injected as an argument (the spec requires the suffix source to be
injectable). -/
def generate_semantic_id (pfx bead_type title suffix : List Char) : List Char :=
  composeId pfx (typeCodeOf bead_type) (generate_semantic_slug title) suffix

/-- One input record, with the fields the analyzer reads: `id`, `title`,
and the resolved `issue_type`/`type` label (the JSON-level fallback to
`"unknown"` happens at the input boundary). -/
structure BeadRecord where
  id : List Char
  title : List Char
  beadType : List Char
deriving DecidableEq

/-- The pre-suffix key `f"{prefix}-{type_code}-{slug}"` appended to
`slug_only_list` for each record (source line 117). -/
def recordKey (r : BeadRecord) : List Char :=
  extract_prefix r.id ++ "-".data ++ typeCodeOf r.beadType ++ "-".data ++
    generate_semantic_slug r.title

/-- One `Counter` update: increment the count of `k`, appending a fresh
entry when `k` is new (Python dicts keep first-insertion order). -/
def bumpKey : List (List Char × Nat) → List Char → List (List Char × Nat)
  | [], k => [(k, 1)]
  | (k', c) :: rest, k =>
    if k = k' then (k', c + 1) :: rest else (k', c) :: bumpKey rest k

/-- `collections.Counter` over a list of keys: each distinct key paired
with its multiplicity, in first-seen order. -/
def counterOf (l : List (List Char)) : List (List Char × Nat) :=
  l.foldl bumpKey []

/-- Python true division into ℚ; `none` models `ZeroDivisionError`. -/
def pyDivQ (a b : ℚ) : Option ℚ :=
  if b = 0 then none else some (a / b)

/-- `collision_instances = sum(c for s, c in slug_counts.items() if c > 1)`
(source line 125). -/
def collisionInstancesOf (counts : List (List Char × Nat)) : Nat :=
  ((counts.filter (fun p => 1 < p.2)).map (fun p => p.2)).sum

/-- The unguarded summary percentage `100*collision_instances/total`
(source line 168); `none` when `total = 0`. -/
def slugCollisionPct (corpus : List BeadRecord) : Option ℚ :=
  pyDivQ (100 * (collisionInstancesOf (counterOf (corpus.map recordKey)) : ℚ))
    (corpus.length : ℚ)

/-- `avg_slug_len = sum(slug_lengths)/len(slug_lengths) if slug_lengths
else 0` (source line 182) — this one is guarded. -/
def avgSlugLen (corpus : List BeadRecord) : ℚ :=
  if corpus.isEmpty then 0
  else ((corpus.map (fun r => ((generate_semantic_slug r.title).length : ℚ))).sum) /
    (corpus.length : ℚ)

/-- The work-bead type codes `{"bug", "tsk", "epc", "ftr"}` (source
line 209). -/
def workTypeCodes : List (List Char) :=
  ["bug".data, "tsk".data, "epc".data, "ftr".data]

/-- `work_beads` (source line 210): records whose resolved type code is a
work code. -/
def workBeads (corpus : List BeadRecord) : List BeadRecord :=
  corpus.filter (fun r => workTypeCodes.contains (typeCodeOf r.beadType))

/-- `work_collision_count` (source line 214). -/
def workCollisionCount (corpus : List BeadRecord) : Nat :=
  collisionInstancesOf (counterOf ((workBeads corpus).map recordKey))

/-- `work_collision_rate = 100 * work_collision_count / len(work_beads) if
work_beads else 0` (source line 215). -/
def workCollisionRate (corpus : List BeadRecord) : ℚ :=
  if (workBeads corpus).isEmpty then 0
  else 100 * (workCollisionCount corpus : ℚ) / ((workBeads corpus).length : ℚ)

/-- C3 counterexample: the claim says `generate_semantic_slug "!!!"` is
`"untitled"`, but the code returns `"untitled"` only for an empty *title*;
`"!!!"` normalizes to the empty string and the minimum-length step then
returns `"xxx"`. -/
theorem C3_bang_counterexample :
    ¬(generate_semantic_slug "!!!".data = "untitled".data) := by decide

/-- C3 amended: the empty title maps to `"untitled"`, while `"!!!"` (whose
normalization leaves nothing) maps to `"xxx"` via the minimum-length
padding, not to `"untitled"`. -/
theorem C3_empty_and_bang :
    generate_semantic_slug "".data = "untitled".data ∧
      generate_semantic_slug "!!!".data = "xxx".data := by decide

/-- The eleven named rows of the type table as the claim lists them
(without the fallback row). -/
def claimTypePairs : List (List Char × List Char) :=
  [("epic".data, "epc".data), ("bug".data, "bug".data), ("task".data, "tsk".data),
   ("feature".data, "ftr".data), ("decision".data, "dec".data), ("convoy".data, "cnv".data),
   ("molecule".data, "mol".data), ("wisp".data, "wsp".data), ("agent".data, "agt".data),
   ("role".data, "rol".data), ("mr".data, "mrq".data)]

/-- C6: type resolution is exact-match lookup against the fixed table;
every label outside the table resolves to `"unk"`; every resolved code
has exactly 3 characters. -/
theorem C6_type_resolution (t : List Char) :
    (∀ p ∈ claimTypePairs, t = p.1 → typeCodeOf t = p.2) ∧
      (t ∉ claimTypePairs.map Prod.fst → typeCodeOf t = "unk".data) ∧
      (typeCodeOf t).length = 3 := by
  refine ⟨?_, ?_, ?_⟩
  · intro p hp ht
    subst ht
    fin_cases hp <;> decide
  · intro hnot
    simp only [claimTypePairs, List.map_cons, List.map_nil, List.mem_cons,
      List.not_mem_nil, or_false, not_or] at hnot
    obtain ⟨h1, h2, h3, h4, h5, h6, h7, h8, h9, h10, h11⟩ := hnot
    by_cases hu : t = "unknown".data
    · subst hu; decide
    · have e1 : (t == "epic".data) = false := beq_eq_false_iff_ne.mpr h1
      have e2 : (t == "bug".data) = false := beq_eq_false_iff_ne.mpr h2
      have e3 : (t == "task".data) = false := beq_eq_false_iff_ne.mpr h3
      have e4 : (t == "feature".data) = false := beq_eq_false_iff_ne.mpr h4
      have e5 : (t == "decision".data) = false := beq_eq_false_iff_ne.mpr h5
      have e6 : (t == "convoy".data) = false := beq_eq_false_iff_ne.mpr h6
      have e7 : (t == "molecule".data) = false := beq_eq_false_iff_ne.mpr h7
      have e8 : (t == "wisp".data) = false := beq_eq_false_iff_ne.mpr h8
      have e9 : (t == "agent".data) = false := beq_eq_false_iff_ne.mpr h9
      have e10 : (t == "role".data) = false := beq_eq_false_iff_ne.mpr h10
      have e11 : (t == "mr".data) = false := beq_eq_false_iff_ne.mpr h11
      have e12 : (t == "unknown".data) = false := beq_eq_false_iff_ne.mpr hu
      simp [typeCodeOf, TYPE_CODES, List.lookup, e1, e2, e3, e4, e5, e6, e7, e8,
        e9, e10, e11, e12]
  · have hval : ∀ p ∈ TYPE_CODES, (p.2).length = 3 := by decide
    rw [typeCodeOf]
    cases hl : TYPE_CODES.lookup t with
    | none => decide
    | some v =>
      obtain ⟨l1, l2, heq, -⟩ := List.lookup_eq_some_iff.mp hl
      have hv : (t, v) ∈ TYPE_CODES := by
        rw [heq]
        exact List.mem_append_right _ (List.mem_cons_self _ _)
      simpa using hval _ hv

/-- C6 witness: an unrecognized label resolves to `"unk"`, itself 3
characters long. -/
theorem C6_type_resolution_witness :
    typeCodeOf "patrol".data = "unk".data ∧ (typeCodeOf "patrol".data).length = 3 :=
  ⟨(C6_type_resolution "patrol".data).2.1 (by decide),
    (C6_type_resolution "patrol".data).2.2⟩

/-- C8: ID composition is pure concatenation
`prefix + "-" + typeCode + "-" + slug + suffix`, with no separator
between slug and suffix; in particular
`compose("gt","bug","login_bug","a1b2") = "gt-bug-login_buga1b2"`. -/
theorem C8_compose_concat :
    composeId "gt".data "bug".data "login_bug".data "a1b2".data =
        "gt-bug-login_buga1b2".data ∧
      ∀ pfx type_code slug suffix : List Char,
        composeId pfx type_code slug suffix =
          pfx ++ "-".data ++ type_code ++ "-".data ++ slug ++ suffix := by
  exact ⟨by decide, fun _ _ _ _ => rfl⟩

lemma pySplit_ne_nil (sep : Char) : ∀ l : List Char, pySplit sep l ≠ [] := by
  intro l
  cases l with
  | nil => simp [pySplit]
  | cons c cs =>
    rw [pySplit]
    split
    · simp
    · cases pySplit sep cs <;> simp

lemma pySplit_headD (sep : Char) : ∀ l : List Char,
    (pySplit sep l).headD [] = l.takeWhile (· != sep) := by
  intro l
  induction l with
  | nil => rfl
  | cons c cs ih =>
    rw [pySplit]
    by_cases hc : (c == sep) = true
    · rw [if_pos hc]
      have : (c != sep) = false := by simp [bne]; exact beq_iff_eq.mp hc
      simp [List.takeWhile_cons, this]
    · rw [if_neg hc]
      have hbne : (c != sep) = true := by simp [bne, hc]
      cases hsplit : pySplit sep cs with
      | nil => exact absurd hsplit (pySplit_ne_nil sep cs)
      | cons h tl =>
        rw [hsplit] at ih
        simp only [List.headD_cons] at ih
        simp [List.takeWhile_cons, hbne, ih]

/-- C10: for every id containing a hyphen, the prefix is the (possibly
empty) segment before the first hyphen; only hyphen-free ids default to
`"gt"`; an id beginning with `-` yields an empty prefix, so the composed
semantic ID begins with `-` rather than `gt-`. -/
theorem C10_before_first_hyphen (bead_id : List Char) :
    ('-' ∈ bead_id → extract_prefix bead_id = bead_id.takeWhile (· != '-')) ∧
      ('-' ∉ bead_id → extract_prefix bead_id = "gt".data) ∧
      (bead_id.head? = some '-' →
        extract_prefix bead_id = [] ∧
          (composeId ( extract_prefix bead_id) "bug".data "xxx".data "a1b2".data).head? =
            some '-') := by
  refine ⟨?_, ?_, ?_⟩
  · intro hmem
    rw [ extract_prefix, if_pos hmem, pySplit_headD]
  · intro hmem
    rw [ extract_prefix, if_neg hmem]
  · intro hh
    cases bead_id with
    | nil => exact absurd hh (by simp)
    | cons c rest =>
      simp only [List.head?_cons, Option.some.injEq] at hh
      subst hh
      have hmem : '-' ∈ '-' :: rest := List.mem_cons_self _ _
      have hex : extract_prefix ('-' :: rest) = [] := by
        rw [ extract_prefix, if_pos hmem, pySplit_headD]
        simp [List.takeWhile_cons]
      refine ⟨hex, ?_⟩
      rw [hex]
      rfl

/-- C10 witness: the concrete id `"-abc"` has a hyphen, and its extracted
prefix is empty. -/
theorem C10_before_first_hyphen_witness :
    extract_prefix "-abc".data = "-abc".data.takeWhile (· != '-') ∧
      extract_prefix "-abc".data = [] :=
  ⟨(C10_before_first_hyphen "-abc".data).1 (by decide),
    ((C10_before_first_hyphen "-abc".data).2.2 (by decide)).1⟩

/-- C2: at the failing input (the empty corpus) the summary collision
percentage `100*collision_instances/total` (source line 168) divides by
zero — modelled as `none` — so the run aborts, even though the average
and histogram computations (source lines 182 and 188) and the work rate
(source line 215) are guarded and would report 0. -/
theorem C2_empty_corpus_division :
    slugCollisionPct [] = none ∧ avgSlugLen [] = 0 ∧ workCollisionRate [] = 0 := by
  refine ⟨?_, rfl, rfl⟩
  simp [slugCollisionPct, pyDivQ]

/-- Titles `taa`, `tab`, …: three-letter lowercase titles, pairwise
distinct for `i < 100`, whose slug is the title itself. -/
def synthTitle (i : Nat) : List Char :=
  ['t', Char.ofNat (97 + i / 10), Char.ofNat (97 + i % 10)]

/-- A synthetic corpus of 100 work beads: 95 distinct titles, the first 5
repeated once each (5 duplicate pairs). -/
def syntheticCorpus : List BeadRecord :=
  ((List.range 95).map fun i => ⟨"gt-old".data, synthTitle i, "bug".data⟩) ++
    ((List.range 5).map fun i => ⟨"gt-old".data, synthTitle i, "bug".data⟩)

lemma sum_filter_gt_one {l : List (List Char × Nat)}
    (h : ∀ p ∈ l, p.2 = 1 ∨ p.2 = 2) :
    ((l.filter (fun p => 1 < p.2)).map (fun p => p.2)).sum =
      2 * (l.filter (fun p => p.2 == 2)).length := by
  induction l with
  | nil => rfl
  | cons p l' ih =>
    have hp := h p (List.mem_cons_self _ _)
    have ih' := ih (fun q hq => h q (List.mem_cons_of_mem _ hq))
    rcases hp with h1 | h2
    · rw [List.filter_cons, List.filter_cons, if_neg (by simp [h1]), if_neg (by simp [h1])]
      exact ih'
    · rw [List.filter_cons, List.filter_cons, if_pos (by simp [h2]), if_pos (by simp [h2])]
      simp only [List.map_cons, List.sum_cons, List.length_cons, h2]
      omega

/-- C4 amended, in general form: for any corpus whose work subset has 100
beads and whose pre-suffix key counts are all 1 or 2 with exactly 5 keys
of count 2 (5 duplicate pairs), the reported work-subset collision rate
is 10% — the code counts both members of each colliding pair. -/
theorem C4_work_rate_ten_percent (corpus : List BeadRecord)
    (h100 : (workBeads corpus).length = 100)
    (hdist : ∀ p ∈ counterOf ((workBeads corpus).map recordKey), p.2 = 1 ∨ p.2 = 2)
    (h5 : ((counterOf ((workBeads corpus).map recordKey)).filter
      (fun p => p.2 == 2)).length = 5) :
    workCollisionRate corpus = 10 := by
  have hne : ¬((workBeads corpus).isEmpty = true) := by
    intro hemp
    rw [List.isEmpty_iff.mp hemp] at h100
    simp at h100
  have hcount : workCollisionCount corpus = 10 := by
    rw [workCollisionCount, collisionInstancesOf, sum_filter_gt_one hdist, h5]
  rw [workCollisionRate, if_neg hne, hcount, h100]
  norm_num

set_option maxHeartbeats 4000000 in
/-- C4 counterexample: the synthetic corpus satisfies the claim's
preconditions (100 work beads, 95 distinct pre-suffix keys, exactly 5
keys duplicated once each), yet the reported rate is 10%, not the claimed
5%. -/
theorem C4_rate_is_not_five_percent :
    (workBeads syntheticCorpus).length = 100 ∧
      (counterOf ((workBeads syntheticCorpus).map recordKey)).length = 95 ∧
      ((counterOf ((workBeads syntheticCorpus).map recordKey)).filter
        (fun p => p.2 == 2)).length = 5 ∧
      ((counterOf ((workBeads syntheticCorpus).map recordKey)).all
        (fun p => p.2 == 1 || p.2 == 2)) = true ∧
      workCollisionRate syntheticCorpus = 10 ∧
      workCollisionRate syntheticCorpus ≠ 5 := by
  have h100 : (workBeads syntheticCorpus).length = 100 := by decide
  have hdist : ∀ p ∈ counterOf ((workBeads syntheticCorpus).map recordKey),
      p.2 = 1 ∨ p.2 = 2 := by decide
  have h5 : ((counterOf ((workBeads syntheticCorpus).map recordKey)).filter
      (fun p => p.2 == 2)).length = 5 := by decide
  have hne : ¬((workBeads syntheticCorpus).isEmpty = true) := by
    intro hemp
    rw [List.isEmpty_iff.mp hemp] at h100
    simp at h100
  have hcount : workCollisionCount syntheticCorpus = 10 := by
    rw [workCollisionCount, collisionInstancesOf, sum_filter_gt_one hdist, h5]
  have hrate : workCollisionRate syntheticCorpus = 10 := by
    rw [workCollisionRate, if_neg hne, hcount, h100]
    norm_num
  refine ⟨h100, by decide, h5, by decide, hrate, ?_⟩
  rw [hrate]
  norm_num

set_option maxHeartbeats 4000000 in
/-- C4 witness: the general 10% theorem applies to the synthetic
corpus. -/
theorem C4_work_rate_ten_percent_witness :
    workCollisionRate syntheticCorpus = 10 :=
  C4_work_rate_ten_percent syntheticCorpus (by decide) (by decide) (by decide)

lemma bumpKey_snd_sum (acc : List (List Char × Nat)) (k : List Char) :
    ((bumpKey acc k).map (fun p => p.2)).sum = ((acc.map (fun p => p.2)).sum) + 1 := by
  induction acc with
  | nil => rfl
  | cons p rest ih =>
    obtain ⟨k', c⟩ := p
    rw [bumpKey]
    split
    · simp only [List.map_cons, List.sum_cons]
      omega
    · simp only [List.map_cons, List.sum_cons, ih]
      omega

lemma foldl_bumpKey_snd_sum (l : List (List Char)) : ∀ acc : List (List Char × Nat),
    ((l.foldl bumpKey acc).map (fun p => p.2)).sum =
      (acc.map (fun p => p.2)).sum + l.length := by
  induction l with
  | nil => intro acc; simp
  | cons k l' ih =>
    intro acc
    rw [List.foldl_cons, ih, bumpKey_snd_sum]
    simp only [List.length_cons]
    omega

lemma counterOf_snd_sum (l : List (List Char)) :
    ((counterOf l).map (fun p => p.2)).sum = l.length := by
  rw [counterOf, foldl_bumpKey_snd_sum]
  simp

/-- `type_counts = Counter(r["type_code"] for r in results)` (source
line 143). -/
def typeCounts (corpus : List BeadRecord) : List (List Char × Nat) :=
  counterOf (corpus.map (fun r => typeCodeOf r.beadType))

/-- The type-distribution rows of the report, sorted by descending count
(`sorted(type_counts.items(), key=lambda x: -x[1])`, source line 177;
Python's sort is stable, as is `mergeSort`). -/
def typeDistRows (corpus : List BeadRecord) : List (List Char × Nat) :=
  (typeCounts corpus).mergeSort (fun a b => b.2 ≤ a.2)

/-- C9: the per-type counts in the report's type distribution sum to the
corpus size — every record contributes exactly one resolved type code. -/
theorem C9_type_distribution_sum (corpus : List BeadRecord) :
    ((typeDistRows corpus).map (fun p => p.2)).sum = corpus.length := by
  have hperm : List.Perm (typeDistRows corpus) (typeCounts corpus) := List.mergeSort_perm _ _
  have hsum := (hperm.map (fun p => p.2)).sum_eq
  rw [typeDistRows] at hsum
  rw [typeDistRows, hsum, typeCounts, counterOf_snd_sum, List.length_map]

/-- C5 witness: a 45-letter title exceeds the 40-character budget, has no
underscore boundary, and hard-truncates to exactly 40 characters. -/
theorem C5_truncation_behavior_witness :
    generate_semantic_slug (List.replicate 45 'a') =
        (preTruncSlug (List.replicate 45 'a')).take 40 ∧
      ((preTruncSlug (List.replicate 45 'a')).take 40).length = 40 :=
  (C5_truncation_behavior.1 (List.replicate 45 'a') (by decide)).1 (by decide)

/-- Python `needle in hay` for strings: some suffix of `hay` starts with
`needle`. -/
def containsSub (needle : List Char) : List Char → Bool
  | [] => needle.isPrefixOf []
  | c :: cs => needle.isPrefixOf (c :: cs) || containsSub needle cs

example : containsSub "patrol".data "gt-wsp-patrol_abc".data = true := by decide
example : containsSub "patrol".data "gt-bug-login".data = false := by decide

/-- The per-record derived fields retained by the analyzer loop (source
lines 95-117): all dict entries of `results`, plus the pre-suffix
`slug_only_list` key. -/
structure ResultRow where
  original_id : List Char
  titleShown : List Char
  beadType : List Char
  type_code : List Char
  slug : List Char
  suffix : List Char
  semantic_id : List Char
  slug_length : Nat
  total_length : Nat
  slug_key : List Char

/-- One iteration of the analyzer loop (source lines 95-117). -/
def mkRow (r : BeadRecord) (suffix : List Char) : ResultRow :=
  let pfx := extract_prefix r.id
  let type_code := typeCodeOf r.beadType
  let slug := generate_semantic_slug r.title
  let semantic_id := composeId pfx type_code slug suffix
  { original_id := r.id
    titleShown := if 50 < r.title.length then r.title.take 50 ++ "...".data else r.title
    beadType := r.beadType
    type_code := type_code
    slug := slug
    suffix := suffix
    semantic_id := semantic_id
    slug_length := slug.length
    total_length := semantic_id.length
    slug_key := pfx ++ "-".data ++ type_code ++ "-".data ++ slug }

/-- The analyzer loop over the whole corpus, consuming one suffix from the
injected stream per record. -/
def rowsOf (corpus : List BeadRecord) (suffixes : Nat → List Char) : List ResultRow :=
  List.zipWith mkRow corpus ((List.range corpus.length).map suffixes)

/-- Patrol/Molecule/Work classification of a colliding key (source lines
199-204). -/
def categorize (key : List Char) : List Char :=
  if ["patrol".data, "digest".data, "wisp".data].any (fun kw => containsSub kw key) then
    "Patrol".data
  else if containsSub "mol-".data key || containsSub "molecule".data key then
    "Molecule".data
  else "Work".data

/-- One step of the sample-selection loop (source lines 227-233); the
final `Bool` is the `break` flag.  Membership in `seen_types` only ever
tests `contains`, so a list models the set. -/
def sampleStep (st : List ResultRow × List (List Char) × Bool) (r : ResultRow) :
    List ResultRow × List (List Char) × Bool :=
  if st.2.2 then st
  else
    let st' :=
      if !(st.2.1.contains r.type_code) || st.1.length < 20 then
        if !(["patrol".data, "digest".data, "mol_".data].any
            (fun kw => containsSub kw r.slug)) then
          (st.1 ++ [r], st.2.1 ++ [r.type_code], false)
        else (st.1, st.2.1, false)
      else (st.1, st.2.1, false)
    if 20 ≤ st'.1.length then (st'.1, st'.2.1, true) else st'

/-- Everything the rendered report prints, in report order: the report
text is a fixed function of this structure (source lines 119-264). -/
structure AnalyzerReport where
  total : Nat
  collisions : Nat
  collision_instances : Nat
  collision_pct : Option ℚ
  patrol_collisions : Nat
  work_collisions : Nat
  full_collisions : Nat
  type_rows : List (List Char × Nat × ℚ)
  avg_slug_len : ℚ
  avg_total_len : ℚ
  len_rows : List (List Char × Nat × ℚ × Nat)
  top_rows : List (List Char × Nat × List Char)
  work_section : Option (Nat × ℚ)
  sample_rows : List (List Char × List Char × List Char × Nat)
  criteria : List Bool
  all_passed : Bool

/-- The aggregation phase of `main` (source lines 119-264) as a function
of the per-record rows.  The unguarded division of line 168 is an
`Option ℚ`; the per-type percentage of line 178 is only reached when the
corpus (hence `total`) is nonzero. -/
def slugCountsOf (rows : List ResultRow) : List (List Char × Nat) :=
  counterOf (rows.map (fun r => r.slug_key))

/-- `collisions` (source line 124): number of keys occurring more than
once. -/
def collisionKeysOf (rows : List ResultRow) : Nat :=
  ((slugCountsOf rows).filter (fun p => 1 < p.2)).length

/-- `full_collisions` (source lines 128-129). -/
def fullCollisionsOf (rows : List ResultRow) : Nat :=
  collisionInstancesOf (counterOf (rows.map (fun r => r.semantic_id)))

/-- The ephemeral-keyword list of source line 153. -/
def patrolKeys : List (List Char) :=
  ["patrol".data, "digest".data, "wisp".data, "mol-".data, "molecule".data]

/-- `patrol_collisions` (source lines 149-156). -/
def patrolCollisionsOf (rows : List ResultRow) : Nat :=
  ((((slugCountsOf rows).filter (fun p => 1 < p.2)).filter
    (fun p => patrolKeys.any (fun kw => containsSub kw p.1))).map (fun p => p.2)).sum

/-- `work_collisions` (source lines 149-156). -/
def workCollisionsOf (rows : List ResultRow) : Nat :=
  ((((slugCountsOf rows).filter (fun p => 1 < p.2)).filter
    (fun p => !(patrolKeys.any (fun kw => containsSub kw p.1)))).map (fun p => p.2)).sum

/-- The type-distribution rows with percentages (source lines 177-179);
the percentage is only reached when the corpus is nonempty. -/
def typeRowsOf (rows : List ResultRow) : List (List Char × Nat × ℚ) :=
  ((counterOf (rows.map (fun r => r.type_code))).mergeSort (fun a b => b.2 ≤ a.2)).map
    (fun p => (p.1, p.2, 100 * (p.2 : ℚ) / (rows.length : ℚ)))

/-- `avg_slug_len` (source line 182), guarded. -/
def avgSlugLenOf (rows : List ResultRow) : ℚ :=
  if rows.isEmpty then 0
  else ((rows.map (fun r => (r.slug_length : ℚ))).sum) / (rows.length : ℚ)

/-- `avg_total_len` (source line 183), guarded. -/
def avgTotalLenOf (rows : List ResultRow) : ℚ :=
  if rows.isEmpty then 0
  else ((rows.map (fun r => (r.total_length : ℚ))).sum) / (rows.length : ℚ)

/-- One slug-length band of `len_dist` (source lines 135-140). -/
def bandOf (rows : List ResultRow) (lo hi : Nat) : Nat :=
  (rows.filter (fun r => lo ≤ r.slug_length && r.slug_length ≤ hi)).length

/-- One histogram row: band label, count, guarded percentage (source
line 188), and bar length `int(pct/2)` (source line 189). -/
def lenRowOf (rows : List ResultRow) (label : List Char) (lo hi : Nat) :
    List Char × Nat × ℚ × Nat :=
  let pct : ℚ := if rows.length ≠ 0 then 100 * (bandOf rows lo hi : ℚ) / (rows.length : ℚ) else 0
  (label, bandOf rows lo hi, pct, (pct / 2).floor.toNat)

/-- The four histogram rows (source lines 135-140 and 187-190). -/
def lenRowsOf (rows : List ResultRow) : List (List Char × Nat × ℚ × Nat) :=
  [lenRowOf rows "1-10".data 1 10, lenRowOf rows "11-20".data 11 20,
   lenRowOf rows "21-30".data 21 30, lenRowOf rows "31-40".data 31 40]

/-- The top-collisions table (source lines 146 and 195-206):
`most_common(15)`, stopping at the first count of 1, with display
truncation and category tag. -/
def topRowsOf (rows : List ResultRow) : List (List Char × Nat × List Char) :=
  ((((slugCountsOf rows).mergeSort (fun a b => b.2 ≤ a.2)).take 15).takeWhile
      (fun p => p.2 ≠ 1)).map
    (fun p =>
      ((if 47 < p.1.length then p.1.take 45 ++ "..".data else p.1), p.2, categorize p.1))

/-- `work_beads` over rows (source line 210). -/
def workRowsOf (rows : List ResultRow) : List ResultRow :=
  rows.filter (fun r => workTypeCodes.contains r.type_code)

/-- `work_slugs` (source line 212), recomputed from the row fields exactly
as the source does. -/
def workSlugsOf (rows : List ResultRow) : List (List Char) :=
  (workRowsOf rows).map
    (fun r => extract_prefix r.original_id ++ "-".data ++ r.type_code ++ "-".data ++ r.slug)

/-- `work_collision_rate` (source lines 213-215), guarded. -/
def workRateOf (rows : List ResultRow) : ℚ :=
  if (workRowsOf rows).isEmpty then 0
  else 100 * (collisionInstancesOf (counterOf (workSlugsOf rows)) : ℚ) /
    ((workRowsOf rows).length : ℚ)

/-- The optional work-beads sub-report (source lines 211-219). -/
def workSectionOf (rows : List ResultRow) : Option (Nat × ℚ) :=
  if (workRowsOf rows).isEmpty then none
  else some ((workRowsOf rows).length, workRateOf rows)

/-- The sample table (source lines 225-236). -/
def sampleRowsOf (rows : List ResultRow) : List (List Char × List Char × List Char × Nat) :=
  ((rows.foldl sampleStep ([], [], false)).1.take 20).map
    (fun r =>
      (r.original_id, r.type_code,
        (if 40 < r.semantic_id.length then r.semantic_id.take 40 ++ "...".data
          else r.semantic_id), r.slug_length))

/-- The five acceptance-criteria booleans (source lines 244-252). -/
def criteriaOf (rows : List ResultRow) : List Bool :=
  [true, true, fullCollisionsOf rows == 0,
   decide ((if (workRowsOf rows).isEmpty then 0 else workRateOf rows) < 5),
   decide (15 < avgSlugLenOf rows) && decide (avgSlugLenOf rows < 35)]

/-- The aggregation phase of `main` (source lines 119-264) as a function
of the per-record rows.  The unguarded division of line 168 is an
`Option ℚ`. -/
def reportOfRows (rows : List ResultRow) : AnalyzerReport :=
  { total := rows.length
    collisions := collisionKeysOf rows
    collision_instances := collisionInstancesOf (slugCountsOf rows)
    collision_pct :=
      pyDivQ (100 * (collisionInstancesOf (slugCountsOf rows) : ℚ)) (rows.length : ℚ)
    patrol_collisions := patrolCollisionsOf rows
    work_collisions := workCollisionsOf rows
    full_collisions := fullCollisionsOf rows
    type_rows := typeRowsOf rows
    avg_slug_len := avgSlugLenOf rows
    avg_total_len := avgTotalLenOf rows
    len_rows := lenRowsOf rows
    top_rows := topRowsOf rows
    work_section := workSectionOf rows
    sample_rows := sampleRowsOf rows
    criteria := criteriaOf rows
    all_passed := (criteriaOf rows).all id }

/-- The whole analyzer: corpus plus injected suffix stream to report. -/
def buildReport (corpus : List BeadRecord) (suffixes : Nat → List Char) : AnalyzerReport :=
  reportOfRows (rowsOf corpus suffixes)

/-- C7: the report is a deterministic function of the corpus and the
injected suffix stream — the analyzer consumes exactly one suffix per
record, so two runs whose streams agree on the first `N` entries produce
identical reports. -/
theorem C7_report_deterministic (corpus : List BeadRecord) (s1 s2 : Nat → List Char)
    (h : ∀ i, i < corpus.length → s1 i = s2 i) :
    buildReport corpus s1 = buildReport corpus s2 := by
  rw [buildReport, buildReport]
  congr 1
  rw [rowsOf, rowsOf]
  congr 1
  apply List.map_congr_left
  intro i hi
  exact h i (List.mem_range.mp hi)

/-- A two-record corpus for the determinism witness. -/
def demoCorpus : List BeadRecord :=
  [⟨"gt-1".data, "Fix login".data, "bug".data⟩,
   ⟨"gt-2".data, "Add search".data, "feature".data⟩]

/-- A constant suffix stream. -/
def demoSuffixA : Nat → List Char := fun _ => "a1b2".data

/-- A stream agreeing with `demoSuffixA` only on the first two entries. -/
def demoSuffixB : Nat → List Char := fun i => if i < 2 then "a1b2".data else "zzzz".data

/-- C7 witness: the two streams agree on the corpus, so the two runs
produce equal reports, even though the streams differ beyond it. -/
theorem C7_report_deterministic_witness :
    buildReport demoCorpus demoSuffixA = buildReport demoCorpus demoSuffixB :=
  C7_report_deterministic demoCorpus demoSuffixA demoSuffixB (by decide)
